import Mathlib

/-!
Verification of the order-ranking and pinning logic of the 0x-api order
relay module (src/utils/order_utils.ts), together with the signature
wire-format helpers and the staking-pool result cache.

Conventions of the embedding:
* BigNumber values occurring here are integers (amounts, fees, expiries
  are decoded from decimal strings), modelled as Nat.
* The library BigNumber is configured (by the 0x utils package) with
  DECIMAL_PLACES = 78 and the default ROUNDING_MODE = 4 (round half up,
  i.e. round to nearest, ties away from zero).  `x.div(y)` therefore
  yields the quotient rounded to 78 decimal places.  A non-negative
  value that is a multiple of 10^-78 is represented by its numerator
  scaled by 10^78, so division of integers a/b is modelled by `bnDiv`
  returning that scaled numerator.
* `comparedTo` returns -1 / 0 / 1, modelled by `cmpN`.
-/

/-- Three-way comparison of two Nat values, the model of
`BigNumber.comparedTo` on non-negative finite values. -/
def cmpN (x y : ℕ) : ℤ :=
  if x < y then -1 else if y < x then 1 else 0

/-- Division `a.div(b)` of two non-negative integer BigNumbers under the
library configuration DECIMAL_PLACES = 78, ROUND_HALF_UP, returned as the
result scaled by 10^78: round-half-up of (a·10^78)/b, i.e.
floor((2·a·10^78 + b) / (2·b)).  The precondition b > 0 is the caller's
responsibility (the source divides only by amounts required positive). -/
def bnDiv (a b : ℕ) : ℕ :=
  (2 * (a * 10 ^ 78) + b) / (2 * b)

/-- Fields of the SignedLimitOrder record that the compared operations
read; the remaining fields of the source type (token addresses, salt,
signature, …) are never consulted by the ranking or pinning code. -/
structure SignedLimitOrder where
  maker : String
  makerAmount : ℕ
  takerAmount : ℕ
  takerTokenFeeAmount : ℕ
  expiry : ℕ
  deriving DecidableEq, Repr

/-- orderUtils.compareOrderByFeeRatio: secondary fee-ratio key, then
an expiry tie-break. -/
def compareOrderByFeeRatio (orderA orderB : SignedLimitOrder) : ℤ :=
  let orderAFeePrice := bnDiv orderA.takerTokenFeeAmount orderA.takerAmount
  let orderBFeePrice := bnDiv orderB.takerTokenFeeAmount orderB.takerAmount
  if ¬ (orderAFeePrice = orderBFeePrice) then
    cmpN orderBFeePrice orderAFeePrice
  else
    cmpN orderA.expiry orderB.expiry

/-- orderUtils.compareAskOrder: primary key takerAmount/makerAmount
ascending, falling through to the fee-ratio comparator on equality. -/
def compareAskOrder (orderA orderB : SignedLimitOrder) : ℤ :=
  let orderAPrice := bnDiv orderA.takerAmount orderA.makerAmount
  let orderBPrice := bnDiv orderB.takerAmount orderB.makerAmount
  if ¬ (orderAPrice = orderBPrice) then
    cmpN orderAPrice orderBPrice
  else
    compareOrderByFeeRatio orderA orderB

/-- orderUtils.compareBidOrder: primary key makerAmount/takerAmount
descending, falling through to the fee-ratio comparator on equality. -/
def compareBidOrder (orderA orderB : SignedLimitOrder) : ℤ :=
  let orderAPrice := bnDiv orderA.makerAmount orderA.takerAmount
  let orderBPrice := bnDiv orderB.makerAmount orderB.takerAmount
  if ¬ (orderAPrice = orderBPrice) then
    cmpN orderBPrice orderAPrice
  else
    compareOrderByFeeRatio orderA orderB

/-- Sorting a list of orders with the ask comparator, as a stable sort
(JS Array.prototype.sort is required to be stable). -/
def sortByAsk (l : List SignedLimitOrder) : List SignedLimitOrder :=
  l.mergeSort fun a b => decide (compareAskOrder a b ≤ 0)

/-- Sorting a list of orders with the bid comparator. -/
def sortByBid (l : List SignedLimitOrder) : List SignedLimitOrder :=
  l.mergeSort fun a b => decide (compareBidOrder a b ≤ 0)

-- Sanity checks of the model on concrete values.
example : bnDiv 90 100 = 9 * 10 ^ 77 := by norm_num [bnDiv]
example : cmpN 3 5 = -1 := by decide

/-!
Lemmas relating the rounded division `bnDiv` to exact rational
comparison by cross-multiplication.  Quotients a/b and c/d (b, d > 0)
compare exactly like a·d and c·b; the rounded quotients agree with this
comparison whenever b·d ≤ 10^78, and are monotone unconditionally.
-/

theorem bnDiv_le_bnDiv (a b c d : ℕ) (hb : 0 < b) (hd : 0 < d)
    (h : a * d ≤ c * b) : bnDiv a b ≤ bnDiv c d := by
  unfold bnDiv
  rw [Nat.le_div_iff_mul_le (by omega : 0 < 2 * d)]
  have hq : (2 * (a * 10 ^ 78) + b) / (2 * b) * (2 * b) ≤ 2 * (a * 10 ^ 78) + b :=
    Nat.div_mul_le_self _ _
  have key : (2 * (a * 10 ^ 78) + b) / (2 * b) * (2 * d) * b ≤ (2 * (c * 10 ^ 78) + d) * b := by
    have h1 : (2 * (a * 10 ^ 78) + b) / (2 * b) * (2 * d) * b
        = (2 * (a * 10 ^ 78) + b) / (2 * b) * (2 * b) * d := by ring
    have h2 : ((2 * (a * 10 ^ 78) + b) / (2 * b) * (2 * b)) * d ≤ (2 * (a * 10 ^ 78) + b) * d :=
      Nat.mul_le_mul_right _ hq
    have h3 : (2 * (a * 10 ^ 78) + b) * d ≤ (2 * (c * 10 ^ 78) + d) * b := by
      have : a * d * 10 ^ 78 ≤ c * b * 10 ^ 78 := Nat.mul_le_mul_right _ h
      calc (2 * (a * 10 ^ 78) + b) * d = 2 * (a * d * 10 ^ 78) + b * d := by ring
        _ ≤ 2 * (c * b * 10 ^ 78) + b * d := by omega
        _ = (2 * (c * 10 ^ 78) + d) * b := by ring
    omega
  exact Nat.le_of_mul_le_mul_right key hb

theorem bnDiv_lt_bnDiv (a b c d : ℕ) (hb : 0 < b) (hd : 0 < d)
    (hbd : b * d ≤ 10 ^ 78) (h : a * d < c * b) : bnDiv a b < bnDiv c d := by
  unfold bnDiv
  rw [Nat.lt_iff_add_one_le, Nat.le_div_iff_mul_le (by omega : 0 < 2 * d)]
  have hq : (2 * (a * 10 ^ 78) + b) / (2 * b) * (2 * b) ≤ 2 * (a * 10 ^ 78) + b :=
    Nat.div_mul_le_self _ _
  have key : ((2 * (a * 10 ^ 78) + b) / (2 * b) + 1) * (2 * d) * b
      ≤ (2 * (c * 10 ^ 78) + d) * b := by
    have h1 : ((2 * (a * 10 ^ 78) + b) / (2 * b) + 1) * (2 * d) * b
        = (2 * (a * 10 ^ 78) + b) / (2 * b) * (2 * b) * d + 2 * (b * d) := by ring
    have h2 : ((2 * (a * 10 ^ 78) + b) / (2 * b) * (2 * b)) * d ≤ (2 * (a * 10 ^ 78) + b) * d :=
      Nat.mul_le_mul_right _ hq
    have h3 : (2 * (a * 10 ^ 78) + b) * d + 2 * (b * d) ≤ (2 * (c * 10 ^ 78) + d) * b := by
      have hcross : a * d + 1 ≤ c * b := h
      have : (a * d + 1) * 10 ^ 78 ≤ c * b * 10 ^ 78 := Nat.mul_le_mul_right _ hcross
      have hexp : a * d * 10 ^ 78 + 10 ^ 78 ≤ c * b * 10 ^ 78 := by
        calc a * d * 10 ^ 78 + 10 ^ 78 = (a * d + 1) * 10 ^ 78 := by ring
          _ ≤ c * b * 10 ^ 78 := this
      calc (2 * (a * 10 ^ 78) + b) * d + 2 * (b * d)
          = 2 * (a * d * 10 ^ 78) + b * d + 2 * (b * d) := by ring
        _ ≤ 2 * (a * d * 10 ^ 78) + b * d + 2 * 10 ^ 78 := by omega
        _ = 2 * (a * d * 10 ^ 78 + 10 ^ 78) + b * d := by ring
        _ ≤ 2 * (c * b * 10 ^ 78) + b * d := by omega
        _ = (2 * (c * 10 ^ 78) + d) * b := by ring
    omega
  exact Nat.le_of_mul_le_mul_right key hb

theorem bnDiv_eq_bnDiv (a b c d : ℕ) (hb : 0 < b) (hd : 0 < d)
    (h : a * d = c * b) : bnDiv a b = bnDiv c d :=
  Nat.le_antisymm (bnDiv_le_bnDiv a b c d hb hd h.le)
    (bnDiv_le_bnDiv c d a b hd hb h.ge)

theorem bnDiv_lt_iff (a b c d : ℕ) (hb : 0 < b) (hd : 0 < d)
    (hbd : b * d ≤ 10 ^ 78) : bnDiv a b < bnDiv c d ↔ a * d < c * b := by
  constructor
  · intro hlt
    by_contra hge
    exact absurd (bnDiv_le_bnDiv c d a b hd hb (by omega)) (by omega)
  · exact bnDiv_lt_bnDiv a b c d hb hd hbd

theorem cmpN_nonpos_iff (x y : ℕ) : cmpN x y ≤ 0 ↔ x ≤ y := by
  unfold cmpN; split_ifs <;> omega

theorem cmpN_eq_zero_iff (x y : ℕ) : cmpN x y = 0 ↔ x = y := by
  constructor
  · intro h; unfold cmpN at h; split_ifs at h <;> omega
  · intro h; subst h; simp [cmpN]

theorem cmpN_antisym (x y : ℕ) : cmpN x y = -cmpN y x := by
  unfold cmpN; split_ifs <;> omega

/-- Characterization of the ask comparator as a lexicographic test on
(rounded price ascending, rounded fee ratio descending, expiry ascending). -/
theorem compareAskOrder_nonpos_iff (a b : SignedLimitOrder) :
    compareAskOrder a b ≤ 0 ↔
      (bnDiv a.takerAmount a.makerAmount < bnDiv b.takerAmount b.makerAmount
        ∨ (bnDiv a.takerAmount a.makerAmount = bnDiv b.takerAmount b.makerAmount
          ∧ (bnDiv b.takerTokenFeeAmount b.takerAmount < bnDiv a.takerTokenFeeAmount a.takerAmount
            ∨ (bnDiv a.takerTokenFeeAmount a.takerAmount = bnDiv b.takerTokenFeeAmount b.takerAmount
              ∧ a.expiry ≤ b.expiry)))) := by
  simp only [compareAskOrder, compareOrderByFeeRatio, cmpN]
  split_ifs <;> omega

/-- Characterization of the bid comparator as a lexicographic test on
(rounded price descending, rounded fee ratio descending, expiry ascending). -/
theorem compareBidOrder_nonpos_iff (a b : SignedLimitOrder) :
    compareBidOrder a b ≤ 0 ↔
      (bnDiv b.makerAmount b.takerAmount < bnDiv a.makerAmount a.takerAmount
        ∨ (bnDiv a.makerAmount a.takerAmount = bnDiv b.makerAmount b.takerAmount
          ∧ (bnDiv b.takerTokenFeeAmount b.takerAmount < bnDiv a.takerTokenFeeAmount a.takerAmount
            ∨ (bnDiv a.takerTokenFeeAmount a.takerAmount = bnDiv b.takerTokenFeeAmount b.takerAmount
              ∧ a.expiry ≤ b.expiry)))) := by
  simp only [compareBidOrder, compareOrderByFeeRatio, cmpN]
  split_ifs <;> omega

theorem compareAskOrder_self (a : SignedLimitOrder) : compareAskOrder a a = 0 := by
  simp only [compareAskOrder, compareOrderByFeeRatio, cmpN]
  split_ifs <;> omega

theorem compareBidOrder_self (a : SignedLimitOrder) : compareBidOrder a a = 0 := by
  simp only [compareBidOrder, compareOrderByFeeRatio, cmpN]
  split_ifs <;> omega

theorem compareAskOrder_antisym (a b : SignedLimitOrder) :
    compareAskOrder a b = -compareAskOrder b a := by
  simp only [compareAskOrder, compareOrderByFeeRatio, cmpN]
  split_ifs <;> omega

theorem compareBidOrder_antisym (a b : SignedLimitOrder) :
    compareBidOrder a b = -compareBidOrder b a := by
  simp only [compareBidOrder, compareOrderByFeeRatio, cmpN]
  split_ifs <;> omega

theorem compareAskOrder_trans_nonpos (a b c : SignedLimitOrder)
    (hab : compareAskOrder a b ≤ 0) (hbc : compareAskOrder b c ≤ 0) :
    compareAskOrder a c ≤ 0 := by
  rw [compareAskOrder_nonpos_iff] at hab hbc ⊢
  omega

theorem compareBidOrder_trans_nonpos (a b c : SignedLimitOrder)
    (hab : compareBidOrder a b ≤ 0) (hbc : compareBidOrder b c ≤ 0) :
    compareBidOrder a c ≤ 0 := by
  rw [compareBidOrder_nonpos_iff] at hab hbc ⊢
  omega

theorem sortByAsk_idempotent (l : List SignedLimitOrder) :
    sortByAsk (sortByAsk l) = sortByAsk l := by
  unfold sortByAsk
  refine List.mergeSort_of_sorted (List.sorted_mergeSort ?_ ?_ l)
  · intro x y z hxy hyz
    simp only [decide_eq_true_eq] at *
    exact compareAskOrder_trans_nonpos x y z hxy hyz
  · intro x y
    simp only [Bool.or_eq_true, decide_eq_true_eq]
    have := compareAskOrder_antisym x y
    omega

theorem sortByBid_idempotent (l : List SignedLimitOrder) :
    sortByBid (sortByBid l) = sortByBid l := by
  unfold sortByBid
  refine List.mergeSort_of_sorted (List.sorted_mergeSort ?_ ?_ l)
  · intro x y z hxy hyz
    simp only [decide_eq_true_eq] at *
    exact compareBidOrder_trans_nonpos x y z hxy hyz
  · intro x y
    simp only [Bool.or_eq_true, decide_eq_true_eq]
    have := compareBidOrder_antisym x y
    omega

theorem bnDiv_eq_iff (a b c d : ℕ) (hb : 0 < b) (hd : 0 < d)
    (hbd : b * d ≤ 10 ^ 78) : bnDiv a b = bnDiv c d ↔ a * d = c * b := by
  constructor
  · intro heq
    rcases Nat.lt_trichotomy (a * d) (c * b) with hlt | heq2 | hgt
    · exact absurd (bnDiv_lt_bnDiv a b c d hb hd hbd hlt) (by omega)
    · exact heq2
    · exact absurd (bnDiv_lt_bnDiv c d a b hd hb (Nat.mul_comm b d ▸ hbd) hgt) (by omega)
  · exact bnDiv_eq_bnDiv a b c d hb hd

/-!
Pinning classifier: splitOrdersByPinningAsync.  The configuration
constants PINNED_MM_ADDRESSES and PINNED_POOL_IDS and the outcome of the
cached staking-pools query are passed as parameters; `Except.error`
models the query throwing (the source catches it, logs a warning and
keeps the empty pool list), and `Except.ok none` models a null cached
result (folded to the empty list by the `|| []` guard).
-/

/-- RawPool: a staking pool snapshot entry. -/
structure RawPool where
  pool_id : String
  maker_addresses : List String
  deriving DecidableEq, Repr

/-- PinResult: the two output sequences of the classifier. -/
structure PinResult where
  pin : List SignedLimitOrder
  doNotPin : List SignedLimitOrder
  deriving DecidableEq, Repr

/-- Pool list actually used by splitOrdersByPinningAsync for a given
fetch outcome: the fetched pools on success, otherwise empty. -/
def currentPoolsOfOutcome (poolsFetchOutcome : Except String (Option (List RawPool))) :
    List RawPool :=
  match poolsFetchOutcome with
  | Except.error _ => []
  | Except.ok none => []
  | Except.ok (some pools) => pools

/-- Reputation address list: the static allow-list extended, pool by
pool, with the maker addresses of every fetched pool whose identifier is
in the trusted pool-id list (the forEach loop of the source). -/
def reputationAddresses (pinnedMMAddresses pinnedPoolIds : List String)
    (currentPools : List RawPool) : List String :=
  currentPools.foldl
    (fun makerAddresses poolStats =>
      if pinnedPoolIds.contains poolStats.pool_id then
        makerAddresses ++ poolStats.maker_addresses
      else
        makerAddresses)
    pinnedMMAddresses

/-- orderUtils.splitOrdersByPinningAsync. -/
def splitOrdersByPinning (pinnedMMAddresses pinnedPoolIds : List String)
    (poolsFetchOutcome : Except String (Option (List RawPool)))
    (signedOrders : List SignedLimitOrder) : PinResult :=
  let currentPools := currentPoolsOfOutcome poolsFetchOutcome
  let makerAddresses := reputationAddresses pinnedMMAddresses pinnedPoolIds currentPools
  signedOrders.foldl
    (fun pinResult signedOrder =>
      if makerAddresses.contains signedOrder.maker then
        { pinResult with pin := pinResult.pin ++ [signedOrder] }
      else
        { pinResult with doNotPin := pinResult.doNotPin ++ [signedOrder] })
    ⟨[], []⟩

/-- Classification from the allow-list alone, written out from the
specification wording for the fetch-failure degradation claim. -/
def classifyAllowListOnly (pinnedMMAddresses : List String)
    (signedOrders : List SignedLimitOrder) : PinResult :=
  { pin := signedOrders.filter fun o => pinnedMMAddresses.contains o.maker
    doNotPin := signedOrders.filter fun o => ¬ pinnedMMAddresses.contains o.maker }

theorem reputationAddresses_mem (pinnedMMAddresses pinnedPoolIds : List String)
    (currentPools : List RawPool) (x : String) :
    x ∈ reputationAddresses pinnedMMAddresses pinnedPoolIds currentPools ↔
      x ∈ pinnedMMAddresses ∨
        ∃ p ∈ currentPools, pinnedPoolIds.contains p.pool_id ∧ x ∈ p.maker_addresses := by
  unfold reputationAddresses
  induction currentPools generalizing pinnedMMAddresses with
  | nil => simp
  | cons p ps ih =>
    simp only [List.foldl_cons]
    by_cases hp : pinnedPoolIds.contains p.pool_id
    · rw [if_pos hp, ih]
      simp only [List.mem_append, List.mem_cons]
      constructor
      · rintro ((h | h) | ⟨q, hq, hmem⟩)
        · exact Or.inl h
        · exact Or.inr ⟨p, Or.inl rfl, hp, h⟩
        · exact Or.inr ⟨q, Or.inr hq, hmem⟩
      · rintro (h | ⟨q, (rfl | hq), hqid, hmem⟩)
        · exact Or.inl (Or.inl h)
        · exact Or.inl (Or.inr hmem)
        · exact Or.inr ⟨q, hq, hqid, hmem⟩
    · rw [if_neg hp, ih]
      constructor
      · rintro (h | ⟨q, hq, hmem⟩)
        · exact Or.inl h
        · exact Or.inr ⟨q, List.mem_cons_of_mem _ hq, hmem⟩
      · rintro (h | ⟨q, hq, hqid, hmem⟩)
        · exact Or.inl h
        · rcases List.mem_cons.mp hq with rfl | hq2
          · exact absurd hqid hp
          · exact Or.inr ⟨q, hq2, hqid, hmem⟩

/-- Running the partition loop from any accumulator appends the two
filtered sublists to the accumulator fields. -/
theorem splitLoop_eq (makerAddresses : List String)
    (signedOrders : List SignedLimitOrder) (acc : PinResult) :
    signedOrders.foldl
      (fun pinResult signedOrder =>
        if makerAddresses.contains signedOrder.maker then
          { pinResult with pin := pinResult.pin ++ [signedOrder] }
        else
          { pinResult with doNotPin := pinResult.doNotPin ++ [signedOrder] })
      acc
    = { pin := acc.pin ++ signedOrders.filter (fun o => makerAddresses.contains o.maker)
        doNotPin :=
          acc.doNotPin ++ signedOrders.filter (fun o => ¬ makerAddresses.contains o.maker) } := by
  induction signedOrders generalizing acc with
  | nil => simp
  | cons o os ih =>
    simp only [List.foldl_cons]
    by_cases h : makerAddresses.contains o.maker
    · have h2 : o.maker ∈ makerAddresses := by simpa using h
      rw [if_pos h, ih]
      simp [List.filter_cons, h2]
    · have h2 : ¬ o.maker ∈ makerAddresses := by simpa using h
      rw [if_neg h, ih]
      simp [List.filter_cons, h2]

theorem splitOrdersByPinning_eq (pinnedMMAddresses pinnedPoolIds : List String)
    (poolsFetchOutcome : Except String (Option (List RawPool)))
    (signedOrders : List SignedLimitOrder) :
    splitOrdersByPinning pinnedMMAddresses pinnedPoolIds poolsFetchOutcome signedOrders
    = { pin := signedOrders.filter fun o =>
          (reputationAddresses pinnedMMAddresses pinnedPoolIds
            (currentPoolsOfOutcome poolsFetchOutcome)).contains o.maker
        doNotPin := signedOrders.filter fun o =>
          ¬ (reputationAddresses pinnedMMAddresses pinnedPoolIds
            (currentPoolsOfOutcome poolsFetchOutcome)).contains o.maker } := by
  unfold splitOrdersByPinning
  rw [splitLoop_eq]
  simp

/-!
Result cache used by getPoolsAsync.  The implementation file
(src/utils/result_cache.ts) is not part of the provided sources; the
behaviour below is modelled from the specification of the cache entry
lifecycle and refresh policy.
-/

/-- TEN_MINUTES_MS, the fixed refresh interval of the pools cache. -/
def TEN_MINUTES_MS : ℕ := 10 * 60 * 1000

/-- Modelled from the spec: the cache entry of createResultCache
(src/utils/result_cache.ts is absent from the sources).  It holds the
last successfully fetched value together with the timestamp (ms) of
that fetch, or nothing before the first successful fetch. -/
def CacheState (α : Type) : Type :=
  Option (ℕ × α)

/-- Modelled from the spec: a fetch is attempted exactly when no cached
entry exists or the cached entry's age exceeds the refresh interval. -/
def cacheShouldRefresh {α : Type} (state : CacheState α) (now interval : ℕ) : Bool :=
  match state with
  | none => true
  | some (fetchedAt, _) => decide (fetchedAt + interval < now)

/-- Modelled from the spec: one getResultAsync step of the cache.
`fetched` is the value the external query would return if invoked now.
Returns the new cache state, the result served to the caller, and
whether the external query was invoked. -/
def cacheGetResult {α : Type} (state : CacheState α) (now interval : ℕ)
    (fetched : α) : CacheState α × α × Bool :=
  match state with
  | none => (some (now, fetched), fetched, true)
  | some (fetchedAt, value) =>
    if fetchedAt + interval < now then (some (now, fetched), fetched, true)
    else (some (fetchedAt, value), value, false)

/-!
Signature wire format: serializeSignature joins the four fields with a
comma; deserializeSignature splits on commas, takes the first four
fields and parses the first and fourth with parseInt(_, 10).  Strings
are modelled as lists of characters.  A deserialization in which
parseInt yields NaN makes the assert.isNumber calls of the source
throw; this is modelled as a none result.
-/

/-- Value of a decimal digit character. -/
def digitVal (c : Char) : ℕ := c.toNat - 48

/-- Character of a decimal digit. -/
def digitChar10 (d : ℕ) : Char := Char.ofNat (48 + d)

/-- Decimal digits of n, least significant first, by repeated division;
the first argument is structural fuel (n itself suffices, as the value
shrinks by a factor of ten each step).  Agrees with Nat.digits 10 (see
decDigits_eq_digits below) while reducing in the kernel. -/
def decDigitsAux : ℕ → ℕ → List ℕ
  | 0, _ => []
  | fuel + 1, n => if n = 0 then [] else n % 10 :: decDigitsAux fuel (n / 10)

/-- Decimal digits of a Nat, least significant first. -/
def decDigits (n : ℕ) : List ℕ :=
  decDigitsAux n n

/-- Plain decimal rendering of a Nat, most significant digit first. -/
def natToChars (n : ℕ) : List Char :=
  if n = 0 then ['0'] else ((decDigits n).map digitChar10).reverse

/-- Exponential-notation assembly of the ECMA number-to-string algorithm:
a mantissa digit string s₁s₂…sₖ and a decimal exponent e render as
s₁.s₂…sₖe+e (the fraction part omitted when k = 1). -/
def expNotation (mantissa : List Char) (expo : ℕ) : List Char :=
  match mantissa with
  | [] => []
  | c :: rest =>
    c :: ((if rest.isEmpty then ([] : List Char) else '.' :: rest)
      ++ 'e' :: '+' :: natToChars expo)

/-- JS Number::toString applied to a non-negative integer value n: plain
decimal for n < 10^21, exponential notation for n ≥ 10^21 (the ECMA
ToString algorithm on the exact value: mantissa = n with trailing zeros
stripped, exponent = number of digits of n minus one; for example 10^21
renders as 1e+21).  JS numbers are doubles: an integer value below 2^53
is exact, so below 10^21 this decimal rendering is exactly what JS
prints; rounding of integers above 2^53 to the nearest double is not
modelled, and the exponential branch is exercised in this development
only at 10^21, which is exactly representable. -/
def jsNatToChars (n : ℕ) : List Char :=
  if n < 10 ^ 21 then natToChars n
  else
    expNotation (natToChars (Nat.ofDigits 10 ((decDigits n).dropWhile (fun d => d == 0))))
      ((decDigits n).length - 1)

/-- JS Number::toString applied to an integer value, the conversion
Array.prototype.join performs on the signatureType and v fields. -/
def jsNumberToChars (z : ℤ) : List Char :=
  if z < 0 then '-' :: jsNatToChars z.natAbs else jsNatToChars z.toNat

/-- Longest digit-prefix value: the numeric part of parseInt(_, 10) after
the optional sign, none when no leading digit exists (NaN). -/
def digitsPrefixVal (cs : List Char) : Option ℕ :=
  if (cs.takeWhile Char.isDigit).isEmpty then none
  else some ((cs.takeWhile Char.isDigit).foldl (fun acc c => 10 * acc + digitVal c) 0)

/-- parseInt(str, 10): an optional sign followed by the longest digit
prefix; none models NaN.  (Leading-whitespace trimming of parseInt is
not modelled; no input considered here carries whitespace.) -/
def parseInt10 (cs : List Char) : Option ℤ :=
  if cs.head? = some '-' then (digitsPrefixVal cs.tail).map fun n => -(Int.ofNat n)
  else if cs.head? = some '+' then (digitsPrefixVal cs.tail).map fun n => Int.ofNat n
  else (digitsPrefixVal cs).map fun n => Int.ofNat n

/-- Signature record of @0x/protocol-utils: signatureType and v are JS
numbers (integers in every produced value), r and s are strings. -/
structure Signature where
  signatureType : ℤ
  r : List Char
  s : List Char
  v : ℤ
  deriving DecidableEq, Repr

/-- orderUtils.serializeSignature: [signatureType, r, s, v].join(','). -/
def serializeSignature (sig : Signature) : List Char :=
  List.intercalate [','] [jsNumberToChars sig.signatureType, sig.r, sig.s,
    jsNumberToChars sig.v]

/-- String.prototype.split(',') over a character list. -/
def splitOnComma : List Char → List (List Char)
  | [] => [[]]
  | c :: rest =>
    match splitOnComma rest with
    | [] => [[]]
    | part :: parts =>
      if c = ',' then [] :: part :: parts else (c :: part) :: parts

/-- orderUtils.deserializeSignature: split on commas, destructure the
first four fields, parseInt the first and fourth. -/
def deserializeSignature (cs : List Char) : Option Signature :=
  match splitOnComma cs with
  | signatureTypeStr :: r :: s :: vStr :: _ =>
    match parseInt10 signatureTypeStr, parseInt10 vStr with
    | some signatureType, some v => some ⟨signatureType, r, s, v⟩
    | _, _ => none
  | _ => none

theorem decDigitsAux_eq_digits (fuel : ℕ) :
    ∀ n : ℕ, n ≤ fuel → decDigitsAux fuel n = Nat.digits 10 n := by
  induction fuel with
  | zero =>
    intro n hn
    have hz : n = 0 := by omega
    subst hz
    simp [decDigitsAux]
  | succ fuel ih =>
    intro n hn
    by_cases hz : n = 0
    · subst hz
      simp [decDigitsAux]
    · simp only [decDigitsAux]
      rw [if_neg hz, ih (n / 10) (by omega),
        ← Nat.digits_def' (by norm_num : (1 : ℕ) < 10) (Nat.pos_of_ne_zero hz)]

theorem decDigits_eq_digits (n : ℕ) : decDigits n = Nat.digits 10 n :=
  decDigitsAux_eq_digits n n le_rfl

theorem digitChar10_isDigit {d : ℕ} (hd : d < 10) : (digitChar10 d).isDigit = true := by
  interval_cases d <;> decide

theorem digitVal_digitChar10 {d : ℕ} (hd : d < 10) : digitVal (digitChar10 d) = d := by
  interval_cases d <;> decide

theorem isDigit_ne_comma {c : Char} (h : c.isDigit = true) : c ≠ ',' := by
  intro hc; subst hc; exact absurd h (by decide)

theorem isDigit_ne_minus {c : Char} (h : c.isDigit = true) : c ≠ '-' := by
  intro hc; subst hc; exact absurd h (by decide)

theorem isDigit_ne_plus {c : Char} (h : c.isDigit = true) : c ≠ '+' := by
  intro hc; subst hc; exact absurd h (by decide)

theorem natToChars_all_digits (n : ℕ) : ∀ c ∈ natToChars n, c.isDigit = true := by
  unfold natToChars
  split_ifs with h
  · intro c hc
    simp only [List.mem_singleton] at hc
    subst hc; decide
  · intro c hc
    simp only [List.mem_reverse, List.mem_map] at hc
    obtain ⟨d, hd, rfl⟩ := hc
    rw [decDigits_eq_digits] at hd
    exact digitChar10_isDigit (Nat.digits_lt_base (by norm_num) hd)

theorem natToChars_ne_nil (n : ℕ) : natToChars n ≠ [] := by
  unfold natToChars
  split_ifs with h
  · simp
  · rw [decDigits_eq_digits]
    simp [Nat.digits_ne_nil_iff_ne_zero.mpr h]

theorem natToChars_no_comma (n : ℕ) : ',' ∉ natToChars n :=
  fun h => isDigit_ne_comma (natToChars_all_digits n ',' h) rfl

theorem expNotation_no_comma (mantissa : List Char) (expo : ℕ)
    (hm : ∀ c ∈ mantissa, c.isDigit = true) : ',' ∉ expNotation mantissa expo := by
  cases mantissa with
  | nil => simp [expNotation]
  | cons c rest =>
    intro hmem
    simp only [expNotation] at hmem
    rcases List.mem_cons.mp hmem with h1 | h1
    · exact isDigit_ne_comma (hm c (List.mem_cons_self c rest)) h1.symm
    rcases List.mem_append.mp h1 with h2 | h2
    · by_cases hre : rest.isEmpty
      · rw [if_pos hre] at h2
        simp at h2
      · rw [if_neg hre] at h2
        rcases List.mem_cons.mp h2 with h3 | h3
        · exact absurd h3 (by decide)
        · exact isDigit_ne_comma (hm ',' (List.mem_cons_of_mem c h3)) rfl
    · rcases List.mem_cons.mp h2 with h3 | h3
      · exact absurd h3 (by decide)
      rcases List.mem_cons.mp h3 with h4 | h4
      · exact absurd h4 (by decide)
      · exact natToChars_no_comma _ h4

theorem jsNatToChars_no_comma (n : ℕ) : ',' ∉ jsNatToChars n := by
  unfold jsNatToChars
  split_ifs with h
  · exact natToChars_no_comma n
  · exact expNotation_no_comma _ _ (natToChars_all_digits _)

theorem jsNumberToChars_no_comma (z : ℤ) : ',' ∉ jsNumberToChars z := by
  unfold jsNumberToChars
  split_ifs with h
  · intro hmem
    rcases List.mem_cons.mp hmem with hc | hc
    · exact absurd hc (by decide)
    · exact jsNatToChars_no_comma _ hc
  · exact jsNatToChars_no_comma _

theorem foldl_digits_acc (ds : List ℕ) (h : ∀ d ∈ ds, d < 10) (acc : ℕ) :
    ((ds.map digitChar10).reverse).foldl (fun a c => 10 * a + digitVal c) acc
      = acc * 10 ^ ds.length + Nat.ofDigits 10 ds := by
  induction ds generalizing acc with
  | nil => simp
  | cons d tail ih =>
    have hd : d < 10 := h d (List.mem_cons_self d tail)
    have htail : ∀ x ∈ tail, x < 10 := fun x hx => h x (List.mem_cons_of_mem _ hx)
    simp only [List.map_cons, List.reverse_cons, List.foldl_append, List.foldl_cons,
      List.foldl_nil]
    rw [ih htail, digitVal_digitChar10 hd, Nat.ofDigits_cons, List.length_cons]
    ring

theorem foldl_natToChars (n : ℕ) :
    (natToChars n).foldl (fun a c => 10 * a + digitVal c) 0 = n := by
  unfold natToChars
  split_ifs with h
  · subst h; decide
  · rw [decDigits_eq_digits]
    rw [foldl_digits_acc _ (fun d hd => Nat.digits_lt_base (by norm_num) hd) 0]
    simp [Nat.ofDigits_digits]

theorem takeWhile_of_all {p : Char → Bool} :
    ∀ (cs : List Char), (∀ c ∈ cs, p c = true) → cs.takeWhile p = cs := by
  intro cs h
  induction cs with
  | nil => rfl
  | cons c rest ih =>
    rw [List.takeWhile_cons_of_pos (h c (List.mem_cons_self c rest))]
    rw [ih fun x hx => h x (List.mem_cons_of_mem _ hx)]

theorem digitsPrefixVal_natToChars (n : ℕ) : digitsPrefixVal (natToChars n) = some n := by
  unfold digitsPrefixVal
  rw [takeWhile_of_all _ (natToChars_all_digits n)]
  rw [if_neg (by simp [List.isEmpty_iff, natToChars_ne_nil n])]
  rw [foldl_natToChars]

theorem parseInt10_jsNumberToChars (z : ℤ) (hbound : z.natAbs < 10 ^ 21) :
    parseInt10 (jsNumberToChars z) = some z := by
  by_cases hneg : z < 0
  · have hform : jsNumberToChars z = '-' :: natToChars z.natAbs := by
      unfold jsNumberToChars jsNatToChars
      rw [if_pos hneg, if_pos hbound]
    rw [hform]
    unfold parseInt10
    rw [if_pos (by simp), List.tail_cons, digitsPrefixVal_natToChars]
    simp only [Option.map_some', Option.some.injEq, Int.ofNat_eq_coe]
    omega
  · have hz : jsNumberToChars z = natToChars z.toNat := by
      unfold jsNumberToChars jsNatToChars
      rw [if_neg hneg, if_pos (by omega : z.toNat < 10 ^ 21)]
    obtain ⟨c, rest, hcons⟩ : ∃ c rest, natToChars z.toNat = c :: rest := by
      cases hh : natToChars z.toNat with
      | nil => exact absurd hh (natToChars_ne_nil _)
      | cons c rest => exact ⟨c, rest, rfl⟩
    have hcdig : c.isDigit = true :=
      natToChars_all_digits z.toNat c (by rw [hcons]; exact List.mem_cons_self c rest)
    unfold parseInt10
    rw [hz, hcons]
    rw [if_neg (by simp [isDigit_ne_minus hcdig]), if_neg (by simp [isDigit_ne_plus hcdig])]
    rw [← hcons, digitsPrefixVal_natToChars]
    simp only [Option.map_some', Option.some.injEq, Int.ofNat_eq_coe]
    omega

theorem splitOnComma_ne_nil (cs : List Char) : splitOnComma cs ≠ [] := by
  cases cs with
  | nil => simp [splitOnComma]
  | cons c rest =>
    simp only [splitOnComma]
    cases h : splitOnComma rest with
    | nil => simp
    | cons p ps => split_ifs <;> simp

theorem splitOnComma_comma_cons (rest : List Char) :
    splitOnComma (',' :: rest) = [] :: splitOnComma rest := by
  simp only [splitOnComma]
  cases h : splitOnComma rest with
  | nil => exact absurd h (splitOnComma_ne_nil rest)
  | cons p ps => simp

theorem splitOnComma_cons_ne (c : Char) (rest : List Char) (hc : c ≠ ',')
    (p : List Char) (ps : List (List Char)) (h : splitOnComma rest = p :: ps) :
    splitOnComma (c :: rest) = (c :: p) :: ps := by
  simp only [splitOnComma]
  rw [h]
  simp [hc]

theorem splitOnComma_append (a rest : List Char) (ha : ',' ∉ a) :
    splitOnComma (a ++ ',' :: rest) = a :: splitOnComma rest := by
  induction a with
  | nil => simpa using splitOnComma_comma_cons rest
  | cons c a' ih =>
    have hc : c ≠ ',' := fun h => ha (h ▸ List.mem_cons_self c a')
    have ha' : ',' ∉ a' := fun h => ha (List.mem_cons_of_mem _ h)
    rw [List.cons_append, splitOnComma_cons_ne c _ hc a' (splitOnComma rest) (ih ha')]

theorem splitOnComma_of_no_comma (a : List Char) (ha : ',' ∉ a) :
    splitOnComma a = [a] := by
  induction a with
  | nil => rfl
  | cons c a' ih =>
    have hc : c ≠ ',' := fun h => ha (h ▸ List.mem_cons_self c a')
    have ha' : ',' ∉ a' := fun h => ha (List.mem_cons_of_mem _ h)
    simp only [splitOnComma]
    rw [ih ha']
    simp [hc]

theorem mem_splitOnComma_no_comma :
    ∀ (cs : List Char), ∀ part ∈ splitOnComma cs, ',' ∉ part := by
  intro cs
  induction cs with
  | nil =>
    intro part hp
    simp only [splitOnComma, List.mem_singleton] at hp
    subst hp; simp
  | cons c rest ih =>
    intro part hp
    by_cases hc : c = ','
    · subst hc
      rw [splitOnComma_comma_cons] at hp
      rcases List.mem_cons.mp hp with rfl | hp2
      · simp
      · exact ih part hp2
    · cases h : splitOnComma rest with
      | nil => exact absurd h (splitOnComma_ne_nil rest)
      | cons p ps =>
        rw [splitOnComma_cons_ne c rest hc p ps h] at hp
        rcases List.mem_cons.mp hp with rfl | hp2
        · intro hmem
          rcases List.mem_cons.mp hmem with heq | hmem2
          · exact hc heq.symm
          · exact ih p (h ▸ List.mem_cons_self p ps) hmem2
        · exact ih part (h ▸ List.mem_cons_of_mem p hp2)

theorem length_splitOnComma (cs : List Char) :
    (splitOnComma cs).length = cs.count ',' + 1 := by
  induction cs with
  | nil => simp [splitOnComma]
  | cons c rest ih =>
    by_cases hc : c = ','
    · subst hc
      rw [splitOnComma_comma_cons]
      simp [ih]
    · cases h : splitOnComma rest with
      | nil => exact absurd h (splitOnComma_ne_nil rest)
      | cons p ps =>
        rw [splitOnComma_cons_ne c rest hc p ps h]
        have h2 := ih
        rw [h] at h2
        simp only [List.length_cons] at h2 ⊢
        rw [List.count_cons_of_ne (fun heq => hc heq.symm)]
        omega

theorem serializeSignature_eq (sig : Signature) :
    serializeSignature sig
      = jsNumberToChars sig.signatureType
          ++ ',' :: (sig.r ++ ',' :: (sig.s ++ ',' :: jsNumberToChars sig.v)) := by
  simp [serializeSignature, List.intercalate]

theorem deserializeSignature_serializeSignature (sig : Signature)
    (hr : ',' ∉ sig.r) (hs : ',' ∉ sig.s)
    (hty : sig.signatureType.natAbs < 10 ^ 21) (hv : sig.v.natAbs < 10 ^ 21) :
    deserializeSignature (serializeSignature sig) = some sig := by
  rw [serializeSignature_eq]
  unfold deserializeSignature
  rw [splitOnComma_append _ _ (jsNumberToChars_no_comma _),
      splitOnComma_append _ _ hr,
      splitOnComma_append _ _ hs,
      splitOnComma_of_no_comma _ (jsNumberToChars_no_comma _)]
  simp [parseInt10_jsNumberToChars _ hty, parseInt10_jsNumberToChars _ hv]

theorem deserializeSignature_comma_free (cs : List Char) (sig : Signature)
    (h : deserializeSignature cs = some sig) : ',' ∉ sig.r ∧ ',' ∉ sig.s := by
  unfold deserializeSignature at h
  cases hsp : splitOnComma cs with
  | nil =>
    rw [hsp] at h
    exact Option.noConfusion (show (none : Option Signature) = some sig from h)
  | cons t parts =>
    rw [hsp] at h
    rcases parts with _ | ⟨r, parts⟩
    · exact Option.noConfusion (show (none : Option Signature) = some sig from h)
    rcases parts with _ | ⟨s, parts⟩
    · exact Option.noConfusion (show (none : Option Signature) = some sig from h)
    rcases parts with _ | ⟨v, rest⟩
    · exact Option.noConfusion (show (none : Option Signature) = some sig from h)
    have h3 : (match parseInt10 t, parseInt10 v with
        | some signatureType, some vv => some (⟨signatureType, r, s, vv⟩ : Signature)
        | _, _ => none) = some sig := h
    cases hT : parseInt10 t with
    | none =>
      rw [hT] at h3
      exact Option.noConfusion (show (none : Option Signature) = some sig from h3)
    | some ty =>
      cases hV : parseInt10 v with
      | none =>
        rw [hT, hV] at h3
        exact Option.noConfusion (show (none : Option Signature) = some sig from h3)
      | some vv =>
        rw [hT, hV] at h3
        injection h3 with h4
        subst h4
        constructor
        · exact mem_splitOnComma_no_comma cs r
            (by rw [hsp]; exact List.mem_cons_of_mem _ (List.mem_cons_self r _))
        · exact mem_splitOnComma_no_comma cs s
            (by rw [hsp]
                exact List.mem_cons_of_mem _
                  (List.mem_cons_of_mem _ (List.mem_cons_self s _)))

theorem count_comma_serializeSignature (sig : Signature)
    (hr : ',' ∉ sig.r) (hs : ',' ∉ sig.s) :
    (serializeSignature sig).count ',' = 3 := by
  rw [serializeSignature_eq]
  rw [List.count_append]
  simp only [List.count_cons_self, List.count_append]
  rw [List.count_eq_zero.mpr (jsNumberToChars_no_comma sig.signatureType),
      List.count_eq_zero.mpr hr, List.count_eq_zero.mpr hs,
      List.count_eq_zero.mpr (jsNumberToChars_no_comma sig.v)]

/-!
Claim theorems.
-/

/-- C1 (counterexample): for orders with fee rates 0.01 and 0.02 the fee
comparator returns a positive value, not the negative value the claim
requires when the first order's fee rate is strictly lower: the source
compares orderBFeePrice against orderAFeePrice, ranking the higher fee
rate first. -/
theorem compareOrderByFeeRatio_ascending_false :
    (SignedLimitOrder.mk "makerA" 1 100 1 1).takerTokenFeeAmount
        * (SignedLimitOrder.mk "makerB" 1 100 2 2).takerAmount
      < (SignedLimitOrder.mk "makerB" 1 100 2 2).takerTokenFeeAmount
        * (SignedLimitOrder.mk "makerA" 1 100 1 1).takerAmount
    ∧ compareOrderByFeeRatio (SignedLimitOrder.mk "makerA" 1 100 1 1)
        (SignedLimitOrder.mk "makerB" 1 100 2 2) = 1 := by
  constructor
  · decide
  · decide

/-- C1 (amended): compareOrderByFeeRatio ranks by the fee rate
takerTokenFeeAmount / takerAmount descending: when a's fee rate is
strictly lower than b's (rates distinguishable at the 78-decimal-place
division precision, guaranteed by takerAmountA · takerAmountB ≤ 10^78),
the comparator returns a positive result, so b ranks first; when the fee
rates are exactly equal it returns the comparison of expiries ascending. -/
theorem compareOrderByFeeRatio_fee_rate_descending (a b : SignedLimitOrder)
    (ha : 0 < a.takerAmount) (hb : 0 < b.takerAmount)
    (hbound : a.takerAmount * b.takerAmount ≤ 10 ^ 78) :
    (a.takerTokenFeeAmount * b.takerAmount < b.takerTokenFeeAmount * a.takerAmount →
      0 < compareOrderByFeeRatio a b)
    ∧ (a.takerTokenFeeAmount * b.takerAmount = b.takerTokenFeeAmount * a.takerAmount →
      compareOrderByFeeRatio a b = cmpN a.expiry b.expiry) := by
  constructor
  · intro hcross
    have hlt : bnDiv a.takerTokenFeeAmount a.takerAmount
        < bnDiv b.takerTokenFeeAmount b.takerAmount :=
      bnDiv_lt_bnDiv _ _ _ _ ha hb hbound hcross
    simp only [compareOrderByFeeRatio]
    rw [if_pos (by omega)]
    unfold cmpN
    split_ifs <;> omega
  · intro hcross
    have heq : bnDiv a.takerTokenFeeAmount a.takerAmount
        = bnDiv b.takerTokenFeeAmount b.takerAmount :=
      bnDiv_eq_bnDiv _ _ _ _ ha hb hcross
    simp only [compareOrderByFeeRatio]
    rw [if_neg (by omega)]

/-- C1 (witness): the amended fee-rate comparison applied to concrete
orders with fee rates 1/100 and 3/100. -/
theorem compareOrderByFeeRatio_fee_rate_descending_witness :
    0 < compareOrderByFeeRatio (SignedLimitOrder.mk "makerA" 1 100 1 5)
        (SignedLimitOrder.mk "makerB" 1 100 3 9) :=
  (compareOrderByFeeRatio_fee_rate_descending
      (SignedLimitOrder.mk "makerA" 1 100 1 5) (SignedLimitOrder.mk "makerB" 1 100 3 9)
      (by decide) (by decide) (by decide)).1 (by decide)

/-- C2 (counterexample): two orders encoding different exact prices whose
78-decimal-place rounded quotients coincide: the primary keys compare
equal although the cross products differ, so the comparison is not exact
cross-multiplication. -/
theorem compareAskOrder_exact_cross_false :
    bnDiv (SignedLimitOrder.mk "makerA" (10 ^ 50) (10 ^ 50) 0 0).takerAmount
        (SignedLimitOrder.mk "makerA" (10 ^ 50) (10 ^ 50) 0 0).makerAmount
      = bnDiv (SignedLimitOrder.mk "makerB" (10 ^ 100) (10 ^ 100 + 1) 0 0).takerAmount
        (SignedLimitOrder.mk "makerB" (10 ^ 100) (10 ^ 100 + 1) 0 0).makerAmount
    ∧ (SignedLimitOrder.mk "makerA" (10 ^ 50) (10 ^ 50) 0 0).takerAmount
        * (SignedLimitOrder.mk "makerB" (10 ^ 100) (10 ^ 100 + 1) 0 0).makerAmount
      ≠ (SignedLimitOrder.mk "makerB" (10 ^ 100) (10 ^ 100 + 1) 0 0).takerAmount
        * (SignedLimitOrder.mk "makerA" (10 ^ 50) (10 ^ 50) 0 0).makerAmount
    ∧ compareAskOrder (SignedLimitOrder.mk "makerA" (10 ^ 50) (10 ^ 50) 0 0)
        (SignedLimitOrder.mk "makerB" (10 ^ 100) (10 ^ 100 + 1) 0 0) = 0 := by
  refine ⟨by decide, by decide, by decide⟩

/-- C2 (amended): the primary-key comparison of compareAskOrder is the
comparison of the two quotients rounded half-up to 78 decimal places;
whenever makerAmountA · makerAmountB ≤ 10^78 this agrees exactly with
cross-multiplication: the keys are equal iff
takerAmountA · makerAmountB = takerAmountB · makerAmountA (then the
comparator falls through to the fee comparison), and a orders before b
(result -1) iff takerAmountA · makerAmountB < takerAmountB · makerAmountA. -/
theorem compareAskOrder_cross_mul_within_precision (a b : SignedLimitOrder)
    (ha : 0 < a.makerAmount) (hb : 0 < b.makerAmount)
    (hbound : a.makerAmount * b.makerAmount ≤ 10 ^ 78) :
    (bnDiv a.takerAmount a.makerAmount = bnDiv b.takerAmount b.makerAmount ↔
      a.takerAmount * b.makerAmount = b.takerAmount * a.makerAmount)
    ∧ (bnDiv a.takerAmount a.makerAmount < bnDiv b.takerAmount b.makerAmount ↔
      a.takerAmount * b.makerAmount < b.takerAmount * a.makerAmount)
    ∧ (a.takerAmount * b.makerAmount = b.takerAmount * a.makerAmount →
      compareAskOrder a b = compareOrderByFeeRatio a b)
    ∧ (a.takerAmount * b.makerAmount < b.takerAmount * a.makerAmount →
      compareAskOrder a b = -1) := by
  refine ⟨bnDiv_eq_iff _ _ _ _ ha hb hbound, bnDiv_lt_iff _ _ _ _ ha hb hbound, ?_, ?_⟩
  · intro hcross
    have heq : bnDiv a.takerAmount a.makerAmount = bnDiv b.takerAmount b.makerAmount :=
      bnDiv_eq_bnDiv _ _ _ _ ha hb hcross
    simp only [compareAskOrder]
    rw [if_neg (by omega)]
  · intro hcross
    have hlt : bnDiv a.takerAmount a.makerAmount < bnDiv b.takerAmount b.makerAmount :=
      bnDiv_lt_bnDiv _ _ _ _ ha hb hbound hcross
    simp only [compareAskOrder]
    rw [if_pos (by omega)]
    unfold cmpN
    rw [if_pos hlt]

/-- C2 (witness): the within-precision cross-multiplication equivalence
applied to concrete orders with prices 1/2 and 3/4. -/
theorem compareAskOrder_cross_mul_within_precision_witness :
    compareAskOrder (SignedLimitOrder.mk "makerA" 2 1 0 0)
      (SignedLimitOrder.mk "makerB" 4 3 0 0) = -1 :=
  (compareAskOrder_cross_mul_within_precision
      (SignedLimitOrder.mk "makerA" 2 1 0 0) (SignedLimitOrder.mk "makerB" 4 3 0 0)
      (by decide) (by decide) (by decide)).2.2.2 (by decide)

/-- C3 (counterexample): ask orders with positive amounts, equal (zero)
fee ratio and equal expiry whose exact prices differ only beyond the
78th decimal place: the exact price of the first is strictly lower, yet
compareAskOrder returns 0, not a negative value. -/
theorem compareAskOrder_price_dominance_exact_false :
    (SignedLimitOrder.mk "makerA" (10 ^ 40) (10 ^ 40) 0 500).takerTokenFeeAmount
        * (SignedLimitOrder.mk "makerB" (10 ^ 80) (10 ^ 80 + 1) 0 500).takerAmount
      = (SignedLimitOrder.mk "makerB" (10 ^ 80) (10 ^ 80 + 1) 0 500).takerTokenFeeAmount
        * (SignedLimitOrder.mk "makerA" (10 ^ 40) (10 ^ 40) 0 500).takerAmount
    ∧ (SignedLimitOrder.mk "makerA" (10 ^ 40) (10 ^ 40) 0 500).expiry
      = (SignedLimitOrder.mk "makerB" (10 ^ 80) (10 ^ 80 + 1) 0 500).expiry
    ∧ (SignedLimitOrder.mk "makerA" (10 ^ 40) (10 ^ 40) 0 500).takerAmount
        * (SignedLimitOrder.mk "makerB" (10 ^ 80) (10 ^ 80 + 1) 0 500).makerAmount
      < (SignedLimitOrder.mk "makerB" (10 ^ 80) (10 ^ 80 + 1) 0 500).takerAmount
        * (SignedLimitOrder.mk "makerA" (10 ^ 40) (10 ^ 40) 0 500).makerAmount
    ∧ ¬ compareAskOrder (SignedLimitOrder.mk "makerA" (10 ^ 40) (10 ^ 40) 0 500)
        (SignedLimitOrder.mk "makerB" (10 ^ 80) (10 ^ 80 + 1) 0 500) < 0 := by
  refine ⟨by decide, by decide, by decide, by decide⟩

/-- C3 (amended): for ask orders with positive amounts, equal exact fee
ratio and equal expiry, whose prices are distinguishable at the
78-decimal-place division precision (makerAmountA · makerAmountB ≤ 10^78),
a strictly lower exact price takerAmount/makerAmount sorts first
(compareAskOrder is negative); in particular order A (maker 100, taker 90)
sorts before order B (maker 100, taker 95). -/
theorem compareAskOrder_price_dominance_within_precision :
    (∀ a b : SignedLimitOrder,
      0 < a.makerAmount → 0 < b.makerAmount →
      0 < a.takerAmount → 0 < b.takerAmount →
      a.makerAmount * b.makerAmount ≤ 10 ^ 78 →
      a.takerTokenFeeAmount * b.takerAmount = b.takerTokenFeeAmount * a.takerAmount →
      a.expiry = b.expiry →
      a.takerAmount * b.makerAmount < b.takerAmount * a.makerAmount →
      compareAskOrder a b < 0)
    ∧ compareAskOrder (SignedLimitOrder.mk "makerA" 100 90 0 7)
        (SignedLimitOrder.mk "makerB" 100 95 0 7) = -1 := by
  constructor
  · intro a b hma hmb hta htb hbound hfee hexp hprice
    have hlt : bnDiv a.takerAmount a.makerAmount < bnDiv b.takerAmount b.makerAmount :=
      bnDiv_lt_bnDiv _ _ _ _ hma hmb hbound hprice
    simp only [compareAskOrder]
    rw [if_pos (by omega)]
    unfold cmpN
    rw [if_pos hlt]
    omega
  · decide

/-- C3 (witness): the price-dominance statement applied to the concrete
pair of the claim, maker 100 / taker 90 against maker 100 / taker 95. -/
theorem compareAskOrder_price_dominance_witness :
    compareAskOrder (SignedLimitOrder.mk "makerA" 100 90 18 7)
      (SignedLimitOrder.mk "makerB" 100 95 19 7) < 0 :=
  compareAskOrder_price_dominance_within_precision.1
    (SignedLimitOrder.mk "makerA" 100 90 18 7) (SignedLimitOrder.mk "makerB" 100 95 19 7)
    (by decide) (by decide) (by decide) (by decide) (by decide) (by decide)
    (by decide) (by decide)

/-- C4: compareAskOrder and compareBidOrder are consistent comparators
defining a total order: comparing an order to itself yields 0, swapping
the arguments negates the result (opposite signs or both zero), the
non-positive relation is transitive, and sorting with either comparator
is idempotent. -/
theorem comparator_total_order :
    (∀ a : SignedLimitOrder, compareAskOrder a a = 0)
    ∧ (∀ a : SignedLimitOrder, compareBidOrder a a = 0)
    ∧ (∀ a b : SignedLimitOrder, compareAskOrder a b = -compareAskOrder b a)
    ∧ (∀ a b : SignedLimitOrder, compareBidOrder a b = -compareBidOrder b a)
    ∧ (∀ a b c : SignedLimitOrder,
        compareAskOrder a b ≤ 0 → compareAskOrder b c ≤ 0 → compareAskOrder a c ≤ 0)
    ∧ (∀ a b c : SignedLimitOrder,
        compareBidOrder a b ≤ 0 → compareBidOrder b c ≤ 0 → compareBidOrder a c ≤ 0)
    ∧ (∀ l : List SignedLimitOrder, sortByAsk (sortByAsk l) = sortByAsk l)
    ∧ (∀ l : List SignedLimitOrder, sortByBid (sortByBid l) = sortByBid l) :=
  ⟨compareAskOrder_self, compareBidOrder_self,
    compareAskOrder_antisym, compareBidOrder_antisym,
    compareAskOrder_trans_nonpos, compareBidOrder_trans_nonpos,
    sortByAsk_idempotent, sortByBid_idempotent⟩

/-- C4 (witness): transitivity of the ask comparator applied to three
concrete orders with prices 1/2, 1 and 2. -/
theorem comparator_total_order_witness :
    compareAskOrder (SignedLimitOrder.mk "makerA" 2 1 0 0)
      (SignedLimitOrder.mk "makerC" 1 2 0 0) ≤ 0 :=
  comparator_total_order.2.2.2.2.1
    (SignedLimitOrder.mk "makerA" 2 1 0 0)
    (SignedLimitOrder.mk "makerB" 1 1 0 0)
    (SignedLimitOrder.mk "makerC" 1 2 0 0)
    (by decide) (by decide)

/-- C5: splitOrdersByPinningAsync returns a stable partition of the batch
for every configuration and every fetch outcome: the lengths of pin and
doNotPin add up to the batch length, each input order occurs in pin and
doNotPin together exactly as often as in the batch (their concatenation
is a permutation of the batch: nothing dropped, nothing duplicated), and
each output sequence is a sublist of the batch, so relative input order
is preserved within both. -/
theorem splitOrdersByPinning_stable_partition
    (pinnedMMAddresses pinnedPoolIds : List String)
    (poolsFetchOutcome : Except String (Option (List RawPool)))
    (signedOrders : List SignedLimitOrder) :
    (splitOrdersByPinning pinnedMMAddresses pinnedPoolIds poolsFetchOutcome
        signedOrders).pin.length
      + (splitOrdersByPinning pinnedMMAddresses pinnedPoolIds poolsFetchOutcome
        signedOrders).doNotPin.length
      = signedOrders.length
    ∧ List.Perm
        ((splitOrdersByPinning pinnedMMAddresses pinnedPoolIds poolsFetchOutcome
            signedOrders).pin
          ++ (splitOrdersByPinning pinnedMMAddresses pinnedPoolIds poolsFetchOutcome
            signedOrders).doNotPin)
        signedOrders
    ∧ (∀ o : SignedLimitOrder,
        ((splitOrdersByPinning pinnedMMAddresses pinnedPoolIds poolsFetchOutcome
            signedOrders).pin.count o
          + (splitOrdersByPinning pinnedMMAddresses pinnedPoolIds poolsFetchOutcome
            signedOrders).doNotPin.count o
          = signedOrders.count o))
    ∧ List.Sublist
        (splitOrdersByPinning pinnedMMAddresses pinnedPoolIds poolsFetchOutcome
          signedOrders).pin signedOrders
    ∧ List.Sublist
        (splitOrdersByPinning pinnedMMAddresses pinnedPoolIds poolsFetchOutcome
          signedOrders).doNotPin signedOrders := by
  rw [splitOrdersByPinning_eq]
  have hperm := List.filter_append_perm
    (fun o => (reputationAddresses pinnedMMAddresses pinnedPoolIds
      (currentPoolsOfOutcome poolsFetchOutcome)).contains o.maker) signedOrders
  refine ⟨?_, ?_, ?_, ?_, ?_⟩
  · have := hperm.length_eq
    simpa [List.length_append] using this
  · simpa using hperm
  · intro o
    have := hperm.count_eq o
    simpa [List.count_append] using this
  · exact List.filter_sublist _
  · exact List.filter_sublist _

/-- C6: an order of the batch is placed in pin exactly when its maker
address is equal (as a string, hence case-sensitively) to an entry of
the reputation address set, which consists of the static allow-list
plus the maker addresses of every fetched pool whose pool identifier is
in the trusted pool-identifier list; pools outside that list contribute
nothing. -/
theorem splitOrdersByPinning_pin_iff_reputation
    (pinnedMMAddresses pinnedPoolIds : List String)
    (poolsFetchOutcome : Except String (Option (List RawPool)))
    (signedOrders : List SignedLimitOrder) (o : SignedLimitOrder)
    (ho : o ∈ signedOrders) :
    (o ∈ (splitOrdersByPinning pinnedMMAddresses pinnedPoolIds poolsFetchOutcome
        signedOrders).pin ↔
      o.maker ∈ pinnedMMAddresses ∨
        ∃ p ∈ currentPoolsOfOutcome poolsFetchOutcome,
          p.pool_id ∈ pinnedPoolIds ∧ o.maker ∈ p.maker_addresses)
    ∧ (o ∈ (splitOrdersByPinning pinnedMMAddresses pinnedPoolIds poolsFetchOutcome
        signedOrders).doNotPin ↔
      ¬ (o.maker ∈ pinnedMMAddresses ∨
        ∃ p ∈ currentPoolsOfOutcome poolsFetchOutcome,
          p.pool_id ∈ pinnedPoolIds ∧ o.maker ∈ p.maker_addresses)) := by
  rw [splitOrdersByPinning_eq]
  have hchar : ((reputationAddresses pinnedMMAddresses pinnedPoolIds
      (currentPoolsOfOutcome poolsFetchOutcome)).contains o.maker = true) ↔
      (o.maker ∈ pinnedMMAddresses ∨
        ∃ p ∈ currentPoolsOfOutcome poolsFetchOutcome,
          p.pool_id ∈ pinnedPoolIds ∧ o.maker ∈ p.maker_addresses) := by
    have hcm : ((reputationAddresses pinnedMMAddresses pinnedPoolIds
        (currentPoolsOfOutcome poolsFetchOutcome)).contains o.maker = true) ↔
        o.maker ∈ reputationAddresses pinnedMMAddresses pinnedPoolIds
          (currentPoolsOfOutcome poolsFetchOutcome) := by simp
    rw [hcm, reputationAddresses_mem pinnedMMAddresses pinnedPoolIds _ o.maker]
    refine or_congr Iff.rfl ?_
    refine exists_congr fun p => and_congr Iff.rfl (and_congr ?_ Iff.rfl)
    simp
  constructor
  · simp only [List.mem_filter]
    rw [← hchar]
    simp [ho]
  · simp only [List.mem_filter]
    rw [← hchar]
    simp [ho]

/-- C6 (witness): an order whose maker appears in a trusted pool of a
successful fetch is pinned. -/
theorem splitOrdersByPinning_pin_iff_reputation_witness :
    SignedLimitOrder.mk "0xdef" 1 1 0 0 ∈
      (splitOrdersByPinning ["0xabc"] ["1"]
        (Except.ok (some [RawPool.mk "1" ["0xdef"]]))
        [SignedLimitOrder.mk "0xdef" 1 1 0 0]).pin :=
  (splitOrdersByPinning_pin_iff_reputation ["0xabc"] ["1"]
      (Except.ok (some [RawPool.mk "1" ["0xdef"]]))
      [SignedLimitOrder.mk "0xdef" 1 1 0 0]
      (SignedLimitOrder.mk "0xdef" 1 1 0 0) (by decide)).1.mpr (by decide)

/-- C7: an order whose maker address is in the static allow-list is
always placed in pin, for every outcome of the staking-data fetch. -/
theorem splitOrdersByPinning_allowlist_always_pinned
    (pinnedMMAddresses pinnedPoolIds : List String)
    (poolsFetchOutcome : Except String (Option (List RawPool)))
    (signedOrders : List SignedLimitOrder) (o : SignedLimitOrder)
    (ho : o ∈ signedOrders) (hmaker : o.maker ∈ pinnedMMAddresses) :
    o ∈ (splitOrdersByPinning pinnedMMAddresses pinnedPoolIds poolsFetchOutcome
      signedOrders).pin := by
  rw [splitOrdersByPinning_eq]
  refine List.mem_filter.mpr ⟨ho, ?_⟩
  have hmem : o.maker ∈ reputationAddresses pinnedMMAddresses pinnedPoolIds
      (currentPoolsOfOutcome poolsFetchOutcome) :=
    (reputationAddresses_mem _ _ _ _).mpr (Or.inl hmaker)
  simpa using hmem

/-- C7 (witness): the allow-list guarantee applied to a concrete batch
while the fetch fails. -/
theorem splitOrdersByPinning_allowlist_witness :
    SignedLimitOrder.mk "0xabc" 1 1 0 0 ∈
      (splitOrdersByPinning ["0xabc"] ["1"] (Except.error "query failed")
        [SignedLimitOrder.mk "0xzzz" 1 1 0 0, SignedLimitOrder.mk "0xabc" 1 1 0 0]).pin :=
  splitOrdersByPinning_allowlist_always_pinned ["0xabc"] ["1"] (Except.error "query failed")
    [SignedLimitOrder.mk "0xzzz" 1 1 0 0, SignedLimitOrder.mk "0xabc" 1 1 0 0]
    (SignedLimitOrder.mk "0xabc" 1 1 0 0) (by decide) (by decide)

/-- C8: when the pool-stats fetch raises, splitOrdersByPinningAsync still
returns a complete PinResult equal to classifying the batch with the
static allow-list alone (the catch block keeps the empty pool list; no
error propagates since the function is total on the error outcome). -/
theorem splitOrdersByPinning_fetch_failure_degrades_to_allowlist
    (pinnedMMAddresses pinnedPoolIds : List String) (e : String)
    (signedOrders : List SignedLimitOrder) :
    splitOrdersByPinning pinnedMMAddresses pinnedPoolIds (Except.error e) signedOrders
      = classifyAllowListOnly pinnedMMAddresses signedOrders
    ∧ (splitOrdersByPinning pinnedMMAddresses pinnedPoolIds (Except.error e)
        signedOrders).pin.length
      + (splitOrdersByPinning pinnedMMAddresses pinnedPoolIds (Except.error e)
        signedOrders).doNotPin.length
      = signedOrders.length := by
  constructor
  · rw [splitOrdersByPinning_eq]
    rfl
  · rw [splitOrdersByPinning_eq]
    have hperm := List.filter_append_perm
      (fun o => (reputationAddresses pinnedMMAddresses pinnedPoolIds
        (currentPoolsOfOutcome (Except.error e))).contains o.maker) signedOrders
    have := hperm.length_eq
    simpa [List.length_append] using this

/-- C9: with a cache entry written by a successful fetch at time t1, a
second call at time t2 within the 10-minute refresh interval does not
invoke the query again and serves the cached value; in general a fetch
is attempted exactly when no cached entry exists or the entry's age
exceeds the interval. -/
theorem resultCache_fetch_only_when_stale
    (t1 t2 : ℕ) (fetched1 fetched2 : List RawPool)
    (ht : t2 ≤ t1 + TEN_MINUTES_MS) :
    (cacheGetResult
        (cacheGetResult (none : CacheState (List RawPool)) t1 TEN_MINUTES_MS fetched1).1
        t2 TEN_MINUTES_MS fetched2).2.2 = false
    ∧ (cacheGetResult
        (cacheGetResult (none : CacheState (List RawPool)) t1 TEN_MINUTES_MS fetched1).1
        t2 TEN_MINUTES_MS fetched2).2.1 = fetched1
    ∧ (∀ (state : CacheState (List RawPool)) (now : ℕ) (fetched : List RawPool),
        (cacheGetResult state now TEN_MINUTES_MS fetched).2.2 = true ↔
          state = none ∨
            ∃ ts v, state = some (ts, v) ∧ ts + TEN_MINUTES_MS < now) := by
  refine ⟨?_, ?_, ?_⟩
  · simp only [cacheGetResult]
    rw [if_neg (by omega)]
  · simp only [cacheGetResult]
    rw [if_neg (by omega)]
  · intro state now fetched
    cases state with
    | none => simp [cacheGetResult]
    | some entry =>
      obtain ⟨ts, v⟩ := entry
      simp only [cacheGetResult]
      split_ifs with h
      · simp only [eq_self_iff_true, true_iff]
        exact Or.inr ⟨ts, v, rfl, h⟩
      · simp only [Bool.false_eq_true, false_iff]
        rintro (hcontra | ⟨ts2, v2, heq, hlt⟩)
        · exact hcontra
        · injection heq with heq2
          injection heq2 with heq3 heq4
          subst heq3
          exact h hlt

/-- C9 (witness): two calls one second apart at times 0 ms and 1000 ms
share the single fetch of the first call. -/
theorem resultCache_fetch_only_when_stale_witness :
    (cacheGetResult
        (cacheGetResult (none : CacheState (List RawPool)) 0 TEN_MINUTES_MS []).1
        1000 TEN_MINUTES_MS []).2.2 = false :=
  (resultCache_fetch_only_when_stale 0 1000 [] [] (by decide)).1

/-- C10 (counterexample): the round-trip identity fails for a signature
with comma-free r and s and integer v = 10^21: Array.join renders the
value in JS exponential notation (String(1e21) is 1e+21), parseInt then
reads only the digit prefix 1, so deserializing the serialization
returns v = 1, not the original signature. -/
theorem signature_roundtrip_exp_notation_false :
    ',' ∉ (Signature.mk 2 ['a'] ['b'] (10 ^ 21)).r
    ∧ ',' ∉ (Signature.mk 2 ['a'] ['b'] (10 ^ 21)).s
    ∧ serializeSignature (Signature.mk 2 ['a'] ['b'] (10 ^ 21))
      = ['2', ',', 'a', ',', 'b', ',', '1', 'e', '+', '2', '1']
    ∧ deserializeSignature (serializeSignature (Signature.mk 2 ['a'] ['b'] (10 ^ 21)))
      = some (Signature.mk 2 ['a'] ['b'] 1)
    ∧ deserializeSignature (serializeSignature (Signature.mk 2 ['a'] ['b'] (10 ^ 21)))
      ≠ some (Signature.mk 2 ['a'] ['b'] (10 ^ 21)) := by
  refine ⟨by decide, by decide, by decide, by decide, by decide⟩

/-- C10 (amended): deserializing the serialization of a signature whose r
and s contain no comma and whose signatureType and v are integers of
magnitude below 10^21 (the threshold at which the JS number-to-string
conversion switches to exponential notation) is the identity; when r or
s contains a comma the round-trip never returns the original signature,
and a serialized string whose comma-split field count differs from four
is never the serialization of the signature deserialized from it. -/
theorem signature_roundtrip_decimal_range :
    (∀ sig : Signature, ',' ∉ sig.r → ',' ∉ sig.s →
      sig.signatureType.natAbs < 10 ^ 21 → sig.v.natAbs < 10 ^ 21 →
      deserializeSignature (serializeSignature sig) = some sig)
    ∧ (∀ sig : Signature, (',' ∈ sig.r ∨ ',' ∈ sig.s) →
      deserializeSignature (serializeSignature sig) ≠ some sig)
    ∧ (∀ (cs : List Char) (sig : Signature), (splitOnComma cs).length ≠ 4 →
      deserializeSignature cs = some sig → serializeSignature sig ≠ cs) := by
  refine ⟨deserializeSignature_serializeSignature, ?_, ?_⟩
  · intro sig h hcontra
    obtain ⟨hr, hs⟩ := deserializeSignature_comma_free _ _ hcontra
    rcases h with h | h
    · exact hr h
    · exact hs h
  · intro cs sig hlen hde hser
    obtain ⟨hr, hs⟩ := deserializeSignature_comma_free _ _ hde
    have hcount := count_comma_serializeSignature sig hr hs
    rw [hser] at hcount
    rw [length_splitOnComma] at hlen
    omega

/-- C10 (witness): the round-trip identity on a concrete signature with
comma-free r and s and fields 2 and 28, both below 10^21. -/
theorem signature_roundtrip_decimal_range_witness :
    deserializeSignature (serializeSignature (Signature.mk 2 ['a'] ['b'] 28))
      = some (Signature.mk 2 ['a'] ['b'] 28) :=
  signature_roundtrip_decimal_range.1 (Signature.mk 2 ['a'] ['b'] 28)
    (by decide) (by decide) (by decide) (by decide)
